/-
Verification of the line-aware message chunking algorithm
`split_message_by_lines` from `handlers/tasks.py`.

Python strings are modelled as `List Char`; `text.split('\n')` is modelled by
the structural recursion `splitNL`; the loop over lines with its two mutable
variables `chunks` and `current_chunk` is modelled as a `List.foldl` over a
`SplitState`.
-/
import Mathlib

namespace Misaka

/-- The loop state of `split_message_by_lines`: the output list `chunks`
and the accumulator `current_chunk`. -/
structure SplitState where
  chunks : List (List Char)
  current : List Char
deriving DecidableEq, Repr

/-- Helper for `splitNL`: prepend a character to the first field of the
split (Python's split never returns an empty list of fields). -/
def consHead (c : Char) : List (List Char) → List (List Char)
  | [] => [[c]]
  | r :: rs => (c :: r) :: rs

/-- Python's `text.split('\n')`: split a character list on the newline
character; `"".split('\n') == [""]`, separators are consumed. -/
def splitNL : List Char → List (List Char)
  | [] => [[]]
  | c :: cs => if c = '\n' then [] :: splitNL cs else consHead c (splitNL cs)

/-- Join a list of lines with newline separators (inverse of `splitNL` on
newline-free lines); used to describe chunk contents. -/
def joinNL : List (List Char) → List Char
  | [] => []
  | [l] => l
  | l :: ls => l ++ '\n' :: joinNL ls

/-- One iteration of the `for line in lines` loop of
`split_message_by_lines`:
`if len(current_chunk) + len(line) + 1 > chunk_size:` flush a non-empty
`current_chunk` and restart from `line`; otherwise append `line` to
`current_chunk` (with a joining newline when `current_chunk` is non-empty). -/
def split_step (chunk_size : Nat) (s : SplitState) (line : List Char) :
    SplitState :=
  if s.current.length + line.length + 1 > chunk_size then
    { chunks := if s.current = [] then s.chunks else s.chunks ++ [s.current],
      current := line }
  else
    if s.current = [] then { s with current := line }
    else { s with current := s.current ++ '\n' :: line }

/-- `split_message_by_lines(text, chunk_size=4096)` from `handlers/tasks.py`:
fast path when `len(text) <= chunk_size`, otherwise split into lines, run
the accumulator loop, and flush the final non-empty `current_chunk`. -/
def split_message_by_lines (text : List Char) (chunk_size : Nat := 4096) :
    List (List Char) :=
  if text.length ≤ chunk_size then [text]
  else
    let s := (splitNL text).foldl (split_step chunk_size) ⟨[], []⟩
    if s.current = [] then s.chunks else s.chunks ++ [s.current]

/-- Modelled from the spec (§4.1 step 3): the reference loop body. Compute
the prospective length (`current length + line length + 1` for the joining
newline, except no separator when the current chunk is empty); flush exactly
when the current chunk is non-empty and appending would exceed the limit;
otherwise append the line. -/
def spec_step (limit : Nat) (s : SplitState) (line : List Char) :
    SplitState :=
  let sep : Nat := if s.current = [] then 0 else 1
  let prospective := s.current.length + line.length + sep
  if s.current ≠ [] ∧ prospective > limit then
    { chunks := s.chunks ++ [s.current], current := line }
  else
    if s.current = [] then { s with current := line }
    else { s with current := s.current ++ '\n' :: line }

/-- Modelled from the spec (§4.1): the reference algorithm — fast path below
the limit, else fold the reference loop body over the lines and flush the
final non-empty current chunk. -/
def spec_split (text : List Char) (limit : Nat) : List (List Char) :=
  if text.length ≤ limit then [text]
  else
    let s := (splitNL text).foldl (spec_step limit) ⟨[], []⟩
    if s.current = [] then s.chunks else s.chunks ++ [s.current]

/-- The ordered list of lines carried by a sequence of chunks: each chunk
split back into its lines, concatenated in order. -/
def chunkLines (cs : List (List Char)) : List (List Char) :=
  (cs.map splitNL).flatten

/-! ### Basic facts about `splitNL` and `joinNL` -/

theorem consHead_ne_nil (c : Char) (xs : List (List Char)) :
    consHead c xs ≠ [] := by
  cases xs <;> simp [consHead]

theorem splitNL_ne_nil (t : List Char) : splitNL t ≠ [] := by
  induction t with
  | nil => simp [splitNL]
  | cons c cs ih =>
    by_cases h : c = '\n'
    · simp [splitNL, h]
    · simp [splitNL, h, consHead_ne_nil]

theorem mem_splitNL_not_nl {t l : List Char} (h : l ∈ splitNL t) :
    '\n' ∉ l := by
  induction t generalizing l with
  | nil => simp [splitNL] at h; simp [h]
  | cons c cs ih =>
    by_cases hc : c = '\n'
    · simp [splitNL, hc] at h
      rcases h with h | h
      · simp [h]
      · exact ih h
    · simp only [splitNL, if_neg hc] at h
      cases hr : splitNL cs with
      | nil => exact absurd hr (splitNL_ne_nil cs)
      | cons r rs =>
        rw [hr, consHead] at h
        rcases List.mem_cons.mp h with h | h
        · subst h
          intro hm
          rcases List.mem_cons.mp hm with hm | hm
          · exact hc hm.symm
          · exact ih (hr ▸ List.mem_cons_self r rs) hm
        · exact ih (hr ▸ List.mem_cons_of_mem r h)

theorem splitNL_of_not_nl {l : List Char} (h : '\n' ∉ l) :
    splitNL l = [l] := by
  induction l with
  | nil => rfl
  | cons c cs ih =>
    simp only [List.mem_cons] at h
    push_neg at h
    rw [splitNL, if_neg (fun hc => h.1 hc.symm), ih h.2, consHead]

theorem mem_splitNL_length_le {t l : List Char} (h : l ∈ splitNL t) :
    l.length ≤ t.length := by
  induction t generalizing l with
  | nil => simp [splitNL] at h; simp [h]
  | cons c cs ih =>
    by_cases hc : c = '\n'
    · simp [splitNL, hc] at h
      rcases h with h | h
      · simp [h]
      · exact (ih h).trans (by simp)
    · simp only [splitNL, if_neg hc] at h
      cases hr : splitNL cs with
      | nil => exact absurd hr (splitNL_ne_nil cs)
      | cons r rs =>
        rw [hr, consHead] at h
        rcases List.mem_cons.mp h with h | h
        · subst h
          have := ih (hr ▸ List.mem_cons_self r rs)
          simpa using Nat.succ_le_succ this
        · exact (ih (hr ▸ List.mem_cons_of_mem r h)).trans (by simp)

theorem splitNL_append_nl (a b : List Char) :
    splitNL (a ++ '\n' :: b) = splitNL a ++ splitNL b := by
  induction a with
  | nil => simp [splitNL]
  | cons c cs ih =>
    by_cases hc : c = '\n'
    · simp [splitNL, hc, ih]
    · rw [List.cons_append, splitNL, if_neg hc, ih, splitNL, if_neg hc]
      cases hr : splitNL cs with
      | nil => exact absurd hr (splitNL_ne_nil cs)
      | cons r rs => simp [consHead]

theorem splitNL_all_nl {t : List Char} (h : ∀ c ∈ t, c = '\n') :
    splitNL t = List.replicate (t.length + 1) [] := by
  induction t with
  | nil => rfl
  | cons c cs ih =>
    have hc : c = '\n' := h c (List.mem_cons_self c cs)
    rw [splitNL, if_pos hc, ih (fun x hx => h x (List.mem_cons_of_mem c hx))]
    rfl

theorem joinNL_cons_of_ne_nil (l : List Char) {ls : List (List Char)}
    (h : ls ≠ []) : joinNL (l :: ls) = l ++ '\n' :: joinNL ls := by
  cases ls with
  | nil => exact absurd rfl h
  | cons m ms => rfl

theorem joinNL_append {A B : List (List Char)} (hA : A ≠ []) (hB : B ≠ []) :
    joinNL (A ++ B) = joinNL A ++ '\n' :: joinNL B := by
  induction A with
  | nil => exact absurd rfl hA
  | cons l ls ih =>
    cases ls with
    | nil =>
      cases B with
      | nil => exact absurd rfl hB
      | cons b bs => simp [joinNL, joinNL_cons_of_ne_nil]
    | cons m ms =>
      have hls : (m :: ms : List (List Char)) ≠ [] := by simp
      rw [List.cons_append,
        joinNL_cons_of_ne_nil l (by simp),
        joinNL_cons_of_ne_nil l hls, ih hls, List.append_assoc]
      rfl

theorem joinNL_splitNL (t : List Char) : joinNL (splitNL t) = t := by
  induction t with
  | nil => rfl
  | cons c cs ih =>
    by_cases hc : c = '\n'
    · rw [splitNL, if_pos hc,
        joinNL_cons_of_ne_nil [] (splitNL_ne_nil cs), ih, hc]
      rfl
    · rw [splitNL, if_neg hc]
      cases hr : splitNL cs with
      | nil => exact absurd hr (splitNL_ne_nil cs)
      | cons r rs =>
        rw [hr] at ih
        cases rs with
        | nil => simpa [consHead, joinNL] using congrArg (c :: ·) ih
        | cons s ss =>
          rw [consHead, joinNL_cons_of_ne_nil (c :: r) (by simp),
            joinNL_cons_of_ne_nil r (by simp) ] at *
          simpa using congrArg (c :: ·) ih

/-! ### Fold invariants of the accumulator loop -/

theorem foldl_split_step_all_empty {k : Nat} (hk : 1 ≤ k) (n : Nat)
    (chunks : List (List Char)) :
    (List.replicate n ([] : List Char)).foldl (split_step k)
      ⟨chunks, []⟩ = ⟨chunks, []⟩ := by
  induction n with
  | zero => rfl
  | succ m ih =>
    rw [List.replicate_succ, List.foldl_cons]
    have hstep : split_step k ⟨chunks, []⟩ [] = ⟨chunks, []⟩ := by
      simp [split_step, Nat.lt_irrefl, hk, Nat.lt_of_lt_of_le Nat.zero_lt_one]
    rw [hstep, ih]

theorem foldl_split_step_no_empty_chunk {k : Nat} :
    ∀ (L : List (List Char)) (s : SplitState), [] ∉ s.chunks →
      [] ∉ (L.foldl (split_step k) s).chunks
  | [], _, h => h
  | l :: L, s, h => by
    rw [List.foldl_cons]
    refine foldl_split_step_no_empty_chunk L _ ?_
    unfold split_step
    split
    · by_cases hcur : s.current = []
      · simpa [hcur] using h
      · simp only [if_neg hcur]
        simp only [List.mem_append, List.mem_singleton]
        rintro (hm | hm)
        · exact h hm
        · exact hcur hm.symm
    · split <;> exact h

/-! ### Equality of the implemented loop body and the spec's loop body -/

theorem spec_step_eq_split_step (k : Nat) (s : SplitState) (l : List Char) :
    spec_step k s l = split_step k s l := by
  by_cases hcur : s.current = []
  · have hnot : ¬(s.current ≠ [] ∧
        s.current.length + l.length +
          (if s.current = [] then 0 else 1) > k) := by
      intro h
      exact h.1 hcur
    rw [spec_step, split_step, if_neg hnot, if_pos hcur]
    split
    · rfl
    · rfl
  · rw [spec_step, split_step, if_neg hcur]
    by_cases hcond : s.current.length + l.length + 1 > k
    · rw [if_pos hcond,
        if_pos (by simpa [if_neg hcur] using And.intro hcur hcond)]
      simp [hcur]
    · rw [if_neg hcond,
        if_neg (fun h => hcond (by simpa [if_neg hcur] using h.2)),
        if_neg hcur]

theorem spec_split_eq_split_message_by_lines (t : List Char) (k : Nat) :
    spec_split t k = split_message_by_lines t k := by
  have hstep : spec_step k = split_step k :=
    funext fun s => funext fun l => spec_step_eq_split_step k s l
  rw [spec_split, split_message_by_lines, hstep]

/-! ### Maximality of non-final chunks -/

/-- Appending the first line of `d` to chunk `c` would exceed the limit
`k` (prospective length: `c`'s length plus the joining newline plus the
line's length). -/
def chainR (k : Nat) (c d : List Char) : Prop :=
  c.length + ((splitNL d).headI).length + 1 > k

instance (k : Nat) (c d : List Char) : Decidable (chainR k c d) := by
  unfold chainR; infer_instance

theorem headI_splitNL_of_not_nl {l : List Char} (h : '\n' ∉ l) :
    (splitNL l).headI = l := by rw [splitNL_of_not_nl h]; rfl

theorem headI_splitNL_append_nl (a b : List Char) :
    (splitNL (a ++ '\n' :: b)).headI = (splitNL a).headI := by
  rw [splitNL_append_nl]
  cases ha : splitNL a with
  | nil => exact absurd ha (splitNL_ne_nil a)
  | cons r rs => rfl

/-- Loop invariant for maximality: the flushed chunks are pairwise
maximal, and the last flushed chunk is maximal with respect to whatever
the current accumulator will become. -/
def chainInv (k : Nat) (s : SplitState) : Prop :=
  List.Chain' (chainR k) s.chunks ∧
    ∀ c ∈ s.chunks.getLast?,
      (s.current = [] → k ≤ c.length) ∧
        (s.current ≠ [] → chainR k c s.current)

theorem chainInv_step {k : Nat} {s : SplitState} {l : List Char}
    (hl : '\n' ∉ l) (h : chainInv k s) : chainInv k (split_step k s l) := by
  obtain ⟨hchain, hlast⟩ := h
  unfold split_step
  split
  · rename_i hcond
    by_cases hcur : s.current = []
    · rw [if_pos hcur]
      refine ⟨hchain, fun c hc => ?_⟩
      obtain ⟨h1, _⟩ := hlast c hc
      have hk : k ≤ c.length := h1 hcur
      exact ⟨fun _ => hk, fun _ => by
        unfold chainR; omega⟩
    · rw [if_neg hcur]
      have hR : chainR k s.current l := by
        unfold chainR
        rw [headI_splitNL_of_not_nl hl]
        omega
      constructor
      · rw [List.chain'_append]
        refine ⟨hchain, List.chain'_singleton _, fun x hx y hy => ?_⟩
        simp only [List.head?_cons, Option.mem_some_iff] at hy
        subst hy
        exact ((hlast x hx).2) hcur
      · intro c hc
        rw [List.getLast?_append_cons, List.getLast?_singleton,
          Option.mem_some_iff] at hc
        subst hc
        refine ⟨fun hle => ?_, fun hne => ?_⟩
        · subst hle
          simp only [List.length_nil] at hcond
          omega
        · unfold chainR
          rw [headI_splitNL_of_not_nl hl]
          omega
  · rename_i hcond
    by_cases hcur : s.current = []
    · rw [if_pos hcur]
      refine ⟨hchain, fun c hc => ?_⟩
      obtain ⟨h1, _⟩ := hlast c hc
      have hk : k ≤ c.length := h1 hcur
      exact ⟨fun _ => hk, fun _ => by unfold chainR; omega⟩
    · rw [if_neg hcur]
      refine ⟨hchain, fun c hc => ?_⟩
      have hR : chainR k c s.current := ((hlast c hc).2) hcur
      refine ⟨fun habs => absurd habs (by simp), fun _ => ?_⟩
      unfold chainR at hR ⊢
      rw [headI_splitNL_append_nl]
      exact hR

theorem chainInv_foldl {k : Nat} :
    ∀ (L : List (List Char)) (s : SplitState), (∀ l ∈ L, '\n' ∉ l) →
      chainInv k s → chainInv k (L.foldl (split_step k) s)
  | [], _, _, h => h
  | l :: L, s, hL, h => by
    rw [List.foldl_cons]
    exact chainInv_foldl L _ (fun x hx => hL x (List.mem_cons_of_mem l hx))
      (chainInv_step (hL l (List.mem_cons_self l L)) h)

theorem chainInv_finalize {k : Nat} {s : SplitState} (h : chainInv k s) :
    List.Chain' (chainR k)
      (if s.current = [] then s.chunks else s.chunks ++ [s.current]) := by
  obtain ⟨hchain, hlast⟩ := h
  split
  · exact hchain
  · rename_i hcur
    rw [List.chain'_append]
    refine ⟨hchain, List.chain'_singleton _, fun x hx y hy => ?_⟩
    simp only [List.head?_cons, Option.mem_some_iff] at hy
    subst hy
    exact ((hlast x hx).2) hcur

/-! ### Size bound invariant -/

/-- Loop invariant for the size bound: every flushed chunk and the current
accumulator either fit in the limit or are a single (oversized) member of
the line list `LS`. -/
def sizeInv (k : Nat) (LS : List (List Char)) (s : SplitState) : Prop :=
  (∀ c ∈ s.chunks, c.length ≤ k ∨ (k < c.length ∧ c ∈ LS)) ∧
    (s.current.length ≤ k ∨ (k < s.current.length ∧ s.current ∈ LS))

theorem sizeInv_step {k : Nat} {LS : List (List Char)} {s : SplitState}
    {l : List Char} (hl : l ∈ LS) (h : sizeInv k LS s) :
    sizeInv k LS (split_step k s l) := by
  obtain ⟨hchunks, hcur⟩ := h
  have hlOK : l.length ≤ k ∨ (k < l.length ∧ l ∈ LS) := by
    by_cases hle : l.length ≤ k
    · exact Or.inl hle
    · exact Or.inr ⟨Nat.lt_of_not_le hle, hl⟩
  unfold split_step
  split
  · split
    · exact ⟨hchunks, hlOK⟩
    · refine ⟨fun c hc => ?_, hlOK⟩
      rcases List.mem_append.mp hc with hc | hc
      · exact hchunks c hc
      · rw [List.mem_singleton] at hc
        subst hc
        exact hcur
  · rename_i hcond
    split
    · exact ⟨hchunks, hlOK⟩
    · refine ⟨hchunks, Or.inl ?_⟩
      simp only [List.length_append, List.length_cons]
      omega

theorem sizeInv_foldl {k : Nat} {LS : List (List Char)} :
    ∀ (L : List (List Char)) (s : SplitState), (∀ l ∈ L, l ∈ LS) →
      sizeInv k LS s → sizeInv k LS (L.foldl (split_step k) s)
  | [], _, _, h => h
  | l :: L, s, hL, h => by
    rw [List.foldl_cons]
    exact sizeInv_foldl L _ (fun x hx => hL x (List.mem_cons_of_mem l hx))
      (sizeInv_step (hL l (List.mem_cons_self l L)) h)

theorem sizeInv_finalize {k : Nat} {LS : List (List Char)} {s : SplitState}
    (h : sizeInv k LS s) :
    ∀ c ∈ (if s.current = [] then s.chunks else s.chunks ++ [s.current]),
      c.length ≤ k ∨ (k < c.length ∧ c ∈ LS) := by
  obtain ⟨hchunks, hcur⟩ := h
  intro c hc
  split at hc
  · exact hchunks c hc
  · rcases List.mem_append.mp hc with hc | hc
    · exact hchunks c hc
    · rw [List.mem_singleton] at hc
      subst hc
      exact hcur

/-- Every chunk of the splitter's output fits in the limit, or is a single
oversized input line. -/
theorem split_size_bound (t : List Char) (k : Nat) :
    ∀ c ∈ split_message_by_lines t k,
      c.length ≤ k ∨ (k < c.length ∧ c ∈ splitNL t) := by
  rw [split_message_by_lines]
  split
  · rename_i hfast
    intro c hc
    rw [List.mem_singleton] at hc
    subst hc
    exact Or.inl hfast
  · exact sizeInv_finalize
      (sizeInv_foldl (splitNL t) ⟨[], []⟩ (fun l hl => hl)
        ⟨by simp, Or.inl (Nat.zero_le k)⟩)

/-! ### An oversized line survives as its own chunk -/

/-- Loop invariant: the oversized line is already flushed, or is exactly
the current accumulator. -/
def memInv (line : List Char) (s : SplitState) : Prop :=
  line ∈ s.chunks ∨ s.current = line

theorem memInv_step {k : Nat} {line : List Char} (hlen : k < line.length)
    {s : SplitState} {l : List Char} (h : memInv line s) :
    memInv line (split_step k s l) := by
  rcases h with h | h
  · unfold split_step
    split
    · split
      · exact Or.inl h
      · exact Or.inl (List.mem_append.mpr (Or.inl h))
    · split
      · exact Or.inl h
      · exact Or.inl h
  · have hne : s.current ≠ [] := by
      intro habs
      rw [habs] at h
      rw [← h] at hlen
      simp at hlen
    have hcond : s.current.length + l.length + 1 > k := by
      rw [h]
      omega
    unfold split_step
    rw [if_pos hcond, if_neg hne]
    refine Or.inl (List.mem_append.mpr (Or.inr ?_))
    rw [h]
    exact List.mem_singleton.mpr rfl

theorem memInv_foldl {k : Nat} {line : List Char} (hlen : k < line.length) :
    ∀ (L : List (List Char)) (s : SplitState), memInv line s →
      memInv line (L.foldl (split_step k) s)
  | [], _, h => h
  | l :: L, s, h => by
    rw [List.foldl_cons]
    exact memInv_foldl hlen L _ (memInv_step hlen h)

theorem split_step_oversized {k : Nat} {line : List Char}
    (hlen : k < line.length) (s : SplitState) :
    memInv line (split_step k s line) := by
  have hcond : s.current.length + line.length + 1 > k := by omega
  unfold split_step
  rw [if_pos hcond]
  split
  · exact Or.inr rfl
  · exact Or.inr rfl

/-- An input line longer than the limit is one of the output chunks. -/
theorem oversized_line_mem (t : List Char) (k : Nat) {line : List Char}
    (hmem : line ∈ splitNL t) (hlen : k < line.length) :
    line ∈ split_message_by_lines t k := by
  have hlt : k < t.length :=
    Nat.lt_of_lt_of_le hlen (mem_splitNL_length_le hmem)
  rw [split_message_by_lines, if_neg (Nat.not_le.mpr hlt)]
  obtain ⟨pre, post, hsplit⟩ := List.append_of_mem hmem
  rw [hsplit, List.foldl_append, List.foldl_cons]
  set s2 := post.foldl (split_step k)
    (split_step k (pre.foldl (split_step k) ⟨[], []⟩) line) with hs2
  show line ∈ if s2.current = [] then s2.chunks else s2.chunks ++ [s2.current]
  have hfinal : memInv line s2 :=
    memInv_foldl hlen post _ (split_step_oversized hlen _)
  have hne : line ≠ [] := by
    intro habs
    rw [habs] at hlen
    simp at hlen
  rcases hfinal with h | h
  · split
    · exact h
    · exact List.mem_append.mpr (Or.inl h)
  · rw [if_neg (by rw [h]; exact hne)]
    refine List.mem_append.mpr (Or.inr ?_)
    rw [h]
    exact List.mem_singleton.mpr rfl

/-! ### Which lines survive into the output -/

/-- The ordered list of lines currently held by the state: the lines of
the flushed chunks followed by the lines of a non-empty accumulator. -/
def stateLines (s : SplitState) : List (List Char) :=
  (s.chunks.map splitNL).flatten ++
    (if s.current = [] then [] else splitNL s.current)

theorem stateLines_step {k : Nat} {s : SplitState} {l : List Char}
    (hl : '\n' ∉ l) :
    stateLines (split_step k s l) = stateLines s ++ [l] ∨
      (l = [] ∧ stateLines (split_step k s l) = stateLines s) := by
  have hsl : splitNL l = [l] := splitNL_of_not_nl hl
  by_cases hle : l = []
  · subst hle
    by_cases hcur : s.current = []
    · refine Or.inr ⟨rfl, ?_⟩
      unfold split_step
      split
      · simp [stateLines, hcur]
      · simp [stateLines, hcur]
    · unfold split_step
      split
      · refine Or.inr ⟨rfl, ?_⟩
        simp [stateLines, hcur]
      · refine Or.inl ?_
        simp [stateLines, hcur, splitNL_append_nl, hsl]
  · refine Or.inl ?_
    by_cases hcur : s.current = []
    · unfold split_step
      split
      · simp [stateLines, hcur, hle, hsl]
      · simp [stateLines, hcur, hle, hsl]
    · unfold split_step
      split
      · simp [stateLines, hcur, hle, hsl]
      · simp [stateLines, hcur, hle, hsl, splitNL_append_nl]

theorem stateLines_foldl {k : Nat} :
    ∀ (L : List (List Char)) (s : SplitState), (∀ l ∈ L, '\n' ∉ l) →
      List.Sublist (stateLines (L.foldl (split_step k) s)) (stateLines s ++ L) ∧
        (stateLines (L.foldl (split_step k) s)).filter
            (fun x => !x.isEmpty) =
          (stateLines s ++ L).filter (fun x => !x.isEmpty)
  | [], s, _ => by simp
  | l :: L, s, hL => by
    rw [List.foldl_cons]
    have hl : '\n' ∉ l := hL l (List.mem_cons_self l L)
    obtain ⟨ihsub, ihfil⟩ := stateLines_foldl L (split_step k s l)
      (fun x hx => hL x (List.mem_cons_of_mem l hx))
    have hassoc : (stateLines s ++ [l]) ++ L = stateLines s ++ l :: L := by
      simp
    rcases stateLines_step (k := k) (s := s) hl with h | ⟨hle, h⟩
    · rw [h] at ihsub ihfil
      rw [hassoc] at ihsub ihfil
      exact ⟨ihsub, ihfil⟩
    · subst hle
      rw [h] at ihsub ihfil
      constructor
      · exact ihsub.trans
          (List.Sublist.append_left (List.sublist_cons_self [] L) _)
      · rw [ihfil]
        simp
  termination_by L => L.length

theorem chunkLines_finalize (s : SplitState) :
    chunkLines (if s.current = [] then s.chunks
      else s.chunks ++ [s.current]) = stateLines s := by
  unfold chunkLines stateLines
  split
  · simp
  · simp

/-- The output lines of the splitter form a sublist of the input lines,
and agree with the input lines on every non-empty line. -/
theorem split_lines_sublist (t : List Char) (k : Nat) :
    List.Sublist (chunkLines (split_message_by_lines t k)) (splitNL t) ∧
      (chunkLines (split_message_by_lines t k)).filter
          (fun x => !x.isEmpty) =
        (splitNL t).filter (fun x => !x.isEmpty) := by
  rw [split_message_by_lines]
  split
  · constructor
    · simp [chunkLines]
    · simp [chunkLines]
  · obtain ⟨hsub, hfil⟩ := stateLines_foldl (k := k) (splitNL t) ⟨[], []⟩
      (fun l hl => mem_splitNL_not_nl hl)
    have hinit : stateLines ⟨[], []⟩ = [] := by
      unfold stateLines
      simp
    rw [hinit, List.nil_append] at hsub hfil
    rw [chunkLines_finalize]
    exact ⟨hsub, hfil⟩

/-! ### Every chunk is a contiguous substring of the input -/

theorem joinNL_append_singleton {run : List (List Char)} (h : run ≠ [])
    (l : List Char) : joinNL (run ++ [l]) = joinNL run ++ '\n' :: l :=
  joinNL_append h (by simp)

theorem joinNL_contiguous {run P : List (List Char)} (hne : run ≠ [])
    (h : List.IsInfix run P) :
    List.IsInfix (joinNL run) (joinNL P) := by
  obtain ⟨A, B, hP⟩ := h
  subst hP
  by_cases hA : A = []
  · subst hA
    by_cases hB : B = []
    · subst hB
      simp only [List.nil_append, List.append_nil]
      exact ⟨[], [], by simp⟩
    · refine ⟨[], '\n' :: joinNL B, ?_⟩
      rw [List.nil_append, List.nil_append, joinNL_append hne hB]
  · by_cases hB : B = []
    · subst hB
      refine ⟨joinNL A ++ ['\n'], [], ?_⟩
      rw [List.append_nil, List.append_nil, joinNL_append hA hne]
      simp
    · refine ⟨joinNL A ++ ['\n'], '\n' :: joinNL B, ?_⟩
      rw [List.append_assoc A run B, joinNL_append hA
          (show run ++ B ≠ [] by simp [hne]),
        joinNL_append hne hB]
      simp

/-- Loop invariant: each flushed chunk is the newline-join of a non-empty
contiguous run of already-processed lines, and the current accumulator is
the join of a suffix of the processed lines. -/
def runInv (done : List (List Char)) (s : SplitState) : Prop :=
  (∀ c ∈ s.chunks,
      ∃ run, run ≠ [] ∧ List.IsInfix run done ∧ c = joinNL run) ∧
    (s.current = [] ∨
      ∃ run, run ≠ [] ∧ List.IsSuffix run done ∧ s.current = joinNL run)

theorem runInv_step {k : Nat} {done : List (List Char)} {s : SplitState}
    {l : List Char} (h : runInv done s) :
    runInv (done ++ [l]) (split_step k s l) := by
  obtain ⟨hchunks, hcur⟩ := h
  have hext : ∀ c ∈ s.chunks,
      ∃ run, run ≠ [] ∧ List.IsInfix run (done ++ [l]) ∧ c = joinNL run := by
    intro c hc
    obtain ⟨run, h1, ⟨A, B, hAB⟩, h3⟩ := hchunks c hc
    exact ⟨run, h1, ⟨A, B ++ [l], by simp [← hAB]⟩, h3⟩
  have hnewcur : ∃ run, run ≠ [] ∧ List.IsSuffix run (done ++ [l]) ∧
      l = joinNL run :=
    ⟨[l], by simp, ⟨done, rfl⟩, rfl⟩
  have hcursuf : s.current ≠ [] →
      ∃ run, run ≠ [] ∧ List.IsInfix run (done ++ [l]) ∧
        s.current = joinNL run := by
    intro hne
    rcases hcur with h | ⟨run, h1, ⟨p, hp⟩, h3⟩
    · exact absurd h hne
    · exact ⟨run, h1, ⟨p, [l], by simp [← hp]⟩, h3⟩
  unfold split_step
  split
  · split
    · exact ⟨hext, Or.inr hnewcur⟩
    · rename_i hne
      refine ⟨fun c hc => ?_, Or.inr hnewcur⟩
      rcases List.mem_append.mp hc with hc | hc
      · exact hext c hc
      · rw [List.mem_singleton] at hc
        subst hc
        exact hcursuf hne
  · split
    · exact ⟨hext, Or.inr hnewcur⟩
    · rename_i hne
      rcases hcur with habs | ⟨run, h1, ⟨p, hp⟩, h3⟩
      · exact absurd habs hne
      · refine ⟨hext, Or.inr ⟨run ++ [l], by simp, ⟨p, ?_⟩, ?_⟩⟩
        · rw [← List.append_assoc, hp]
        · rw [joinNL_append_singleton h1, ← h3]

theorem runInv_foldl {k : Nat} :
    ∀ (L done : List (List Char)) (s : SplitState), runInv done s →
      runInv (done ++ L) (L.foldl (split_step k) s)
  | [], done, s, h => by simpa using h
  | l :: L, done, s, h => by
    rw [List.foldl_cons]
    have hrec := runInv_foldl (k := k) L (done ++ [l]) _
      (runInv_step (k := k) h)
    simpa using hrec

/-- Every chunk of the splitter's output is a contiguous substring
(infix) of the input text. -/
theorem split_chunks_contiguous (t : List Char) (k : Nat) :
    ∀ c ∈ split_message_by_lines t k, List.IsInfix c t := by
  rw [split_message_by_lines]
  split
  · intro c hc
    rw [List.mem_singleton] at hc
    subst hc
    exact ⟨[], [], by simp⟩
  · have hinv : runInv (splitNL t)
        ((splitNL t).foldl (split_step k) ⟨[], []⟩) := by
      have hbase : runInv [] (⟨[], []⟩ : SplitState) := ⟨by simp, Or.inl rfl⟩
      have := runInv_foldl (k := k) (splitNL t) [] ⟨[], []⟩ hbase
      simpa using this
    obtain ⟨hchunks, hcur⟩ := hinv
    set s2 := (splitNL t).foldl (split_step k) ⟨[], []⟩ with hs2
    show ∀ c ∈ (if s2.current = [] then s2.chunks
      else s2.chunks ++ [s2.current]), List.IsInfix c t
    intro c hc
    have hrun : ∃ run, run ≠ [] ∧ List.IsInfix run (splitNL t) ∧
        c = joinNL run := by
      split at hc
      · exact hchunks c hc
      · rcases List.mem_append.mp hc with hc | hc
        · exact hchunks c hc
        · rw [List.mem_singleton] at hc
          subst hc
          rename_i hne
          rcases hcur with habs | ⟨run, h1, ⟨p, hp⟩, h3⟩
          · exact absurd habs hne
          · exact ⟨run, h1, ⟨p, [], by rw [← hp]; simp⟩, h3⟩
    obtain ⟨run, h1, h2, h3⟩ := hrun
    subst h3
    have := joinNL_contiguous h1 h2
    rwa [joinNL_splitNL] at this

/-! ### Claim theorems -/

/-- C6: The implemented general-path loop body equals the spec's reference
loop body (flush exactly when the current chunk is non-empty and the
prospective length — current + line + 1 for the joining newline, no
separator on an empty chunk — exceeds the limit), so the whole splitter
equals the reference algorithm; and every chunk except the last is
maximal: appending the first line of the following chunk would exceed the
limit. -/
theorem C6_refinement_and_maximality :
    (∀ (k : Nat) (s : SplitState) (l : List Char),
        spec_step k s l = split_step k s l) ∧
      (∀ (t : List Char) (k : Nat),
        spec_split t k = split_message_by_lines t k) ∧
      ∀ (t : List Char) (k : Nat),
        List.Chain' (chainR k) (split_message_by_lines t k) := by
  refine ⟨spec_step_eq_split_step, spec_split_eq_split_message_by_lines,
    fun t k => ?_⟩
  rw [split_message_by_lines]
  split
  · exact List.chain'_singleton t
  · exact chainInv_finalize
      (chainInv_foldl (splitNL t) ⟨[], []⟩
        (fun l hl => mem_splitNL_not_nl hl) ⟨List.chain'_nil, by simp⟩)

/-- C4: With a positive limit, an input line whose length exceeds the
limit appears as its own chunk in the output, and no chunk contains such
a line together with anything else. -/
theorem C4_oversized_line_alone (t : List Char) (k : Nat)
    (line : List Char) (hk : 0 < k) (hmem : line ∈ splitNL t)
    (hlen : k < line.length) :
    line ∈ split_message_by_lines t k ∧
      ∀ c ∈ split_message_by_lines t k, line ∈ splitNL c → c = line := by
  refine ⟨oversized_line_mem t k hmem hlen, fun c hc hlc => ?_⟩
  rcases split_size_bound t k c hc with h | h
  · have h1 : line.length ≤ c.length := mem_splitNL_length_le hlc
    omega
  · have hcl : splitNL c = [c] := splitNL_of_not_nl (mem_splitNL_not_nl h.2)
    rw [hcl, List.mem_singleton] at hlc
    exact hlc.symm

/-- Witness for C4 at `text = "abcdef\nz"`, `limit = 3`,
`line = "abcdef"`. -/
theorem C4_oversized_line_alone_witness :
    (0 < 3 ∧ "abcdef".toList ∈ splitNL "abcdef\nz".toList ∧
        3 < "abcdef".toList.length) ∧
      "abcdef".toList ∈ split_message_by_lines "abcdef\nz".toList 3 ∧
        ∀ c ∈ split_message_by_lines "abcdef\nz".toList 3,
          "abcdef".toList ∈ splitNL c → c = "abcdef".toList :=
  ⟨⟨by decide, by decide, by decide⟩,
    C4_oversized_line_alone "abcdef\nz".toList 3 "abcdef".toList
      (by decide) (by decide) (by decide)⟩

/-- C1 counterexample: on `"a\n\nb"` with limit 1 the concatenated lines
of the output chunks are `["a", "b"]`, not the original
`["a", "", "b"]` — the empty middle line is dropped. -/
theorem C1_counterexample :
    chunkLines (split_message_by_lines ['a', '\n', '\n', 'b'] 1) ≠
      splitNL ['a', '\n', '\n', 'b'] := by decide

/-- C1 amended: for every input text and positive limit, concatenating
the returned chunks' lines, in order, yields a sublist of the original
lines in which no line content is altered, duplicated, or reordered, and
from which only empty lines can be missing: the two lists agree after
discarding empty lines. -/
theorem C1_amended_line_preservation (t : List Char) (k : Nat)
    (hk : 0 < k) :
    List.Sublist (chunkLines (split_message_by_lines t k)) (splitNL t) ∧
      (chunkLines (split_message_by_lines t k)).filter
          (fun x => !x.isEmpty) =
        (splitNL t).filter (fun x => !x.isEmpty) :=
  split_lines_sublist t k

/-- Witness for C1 (amended) at `text = "a\n\nb"`, `limit = 1`. -/
theorem C1_amended_line_preservation_witness :
    List.Sublist (chunkLines (split_message_by_lines ['a', '\n', '\n', 'b'] 1))
        (splitNL ['a', '\n', '\n', 'b']) ∧
      (chunkLines (split_message_by_lines ['a', '\n', '\n', 'b'] 1)).filter
          (fun x => !x.isEmpty) =
        (splitNL ['a', '\n', '\n', 'b']).filter (fun x => !x.isEmpty) :=
  C1_amended_line_preservation ['a', '\n', '\n', 'b'] 1 (by decide)

/-- C2: With a positive limit, every returned chunk has length at most the
limit, except possibly a chunk that is a single input line whose own
length exceeds the limit. -/
theorem C2_size_bound (t : List Char) (k : Nat) (hk : 0 < k) :
    ∀ c ∈ split_message_by_lines t k,
      c.length ≤ k ∨ (k < c.length ∧ c ∈ splitNL t) :=
  split_size_bound t k

/-- Witness for C2 at `text = "abcdef\nz"`, `limit = 3`, chunk
`"abcdef"` (a single oversized line). -/
theorem C2_size_bound_witness :
    (0 < 3 ∧ "abcdef".toList ∈ split_message_by_lines "abcdef\nz".toList 3) ∧
      ("abcdef".toList.length ≤ 3 ∨
        (3 < "abcdef".toList.length ∧
          "abcdef".toList ∈ splitNL "abcdef\nz".toList)) :=
  ⟨⟨by decide, by decide⟩,
    C2_size_bound "abcdef\nz".toList 3 (by decide) "abcdef".toList
      (by decide)⟩

/-- C3: For every text whose length is at most the limit, split returns the
single-element sequence containing the text unchanged. -/
theorem C3_fast_path_identity (text : List Char) (limit : Nat)
    (h : text.length ≤ limit) :
    split_message_by_lines text limit = [text] := by
  rw [split_message_by_lines, if_pos h]

/-- Witness for C3 at `text = "hi"`, `limit = 5`. -/
theorem C3_fast_path_identity_witness :
    "hi".toList.length ≤ 5 ∧
      split_message_by_lines "hi".toList 5 = ["hi".toList] :=
  ⟨by decide, C3_fast_path_identity "hi".toList 5 (by decide)⟩

/-- C8: The splitter is deterministic — two invocations on equal texts and
equal limits yield equal output sequences; the result depends on nothing
but the two arguments. -/
theorem C8_deterministic (t₁ t₂ : List Char) (k₁ k₂ : Nat)
    (ht : t₁ = t₂) (hk : k₁ = k₂) :
    split_message_by_lines t₁ k₁ = split_message_by_lines t₂ k₂ := by
  rw [ht, hk]

/-- Witness for C8 at `text = "a\nb"`, `limit = 1`. -/
theorem C8_deterministic_witness :
    split_message_by_lines "a\nb".toList 1 =
      split_message_by_lines "a\nb".toList 1 :=
  C8_deterministic "a\nb".toList "a\nb".toList 1 1 rfl rfl

/-- C7 counterexample: on `"line1\nline2\nline3"` with limit 10 the code
does NOT return `["line1\nline2", "line3"]` (the prospective length
5+5+1 = 11 already exceeds 10, so lines never combine). -/
theorem C7_counterexample :
    split_message_by_lines "line1\nline2\nline3".toList 10 ≠
      ["line1\nline2".toList, "line3".toList] := by decide

/-- C7 amended: on `"line1\nline2\nline3"` with limit 10 the code returns
the three lines as separate chunks `["line1", "line2", "line3"]`. -/
theorem C7_amended_example :
    split_message_by_lines "line1\nline2\nline3".toList 10 =
      ["line1".toList, "line2".toList, "line3".toList] := by decide

/-- C9: For every input consisting only of newline characters (every line
empty) whose length exceeds the limit, with limit ≥ 1, the splitter
returns the empty sequence. -/
theorem C9_all_newlines_empty_output (text : List Char) (limit : Nat)
    (hnl : ∀ c ∈ text, c = '\n') (hk : 1 ≤ limit)
    (hlen : limit < text.length) :
    split_message_by_lines text limit = [] := by
  rw [split_message_by_lines, if_neg (Nat.not_le.mpr hlen)]
  simp only [splitNL_all_nl hnl, foldl_split_step_all_empty hk]
  rfl

/-- Witness for C9 at `text = "\n\n"`, `limit = 1`. -/
theorem C9_all_newlines_empty_output_witness :
    split_message_by_lines "\n\n".toList 1 = [] :=
  C9_all_newlines_empty_output "\n\n".toList 1 (by decide) (by decide)
    (by decide)

/-- C5: With a positive limit, no returned chunk is the empty string unless
the whole input is empty, and on empty input the result is the
single-element sequence containing the empty string. -/
theorem C5_no_empty_chunks (text : List Char) (limit : Nat)
    (hk : 0 < limit) :
    (text ≠ [] → ([] : List Char) ∉ split_message_by_lines text limit) ∧
      split_message_by_lines ([] : List Char) limit = [[]] := by
  constructor
  · intro hne
    rw [split_message_by_lines]
    split
    · simpa using hne
    · have hchunks := foldl_split_step_no_empty_chunk (k := limit)
        (splitNL text) ⟨[], []⟩ (by simp)
      set s := (splitNL text).foldl (split_step limit) ⟨[], []⟩ with hs
      by_cases hcur : s.current = []
      · simpa [hcur] using hchunks
      · simp only [if_neg hcur, List.mem_append, List.mem_singleton]
        rintro (hm | hm)
        · exact hchunks hm
        · exact hcur hm.symm
  · rw [split_message_by_lines, if_pos (by simp)]

/-- C10: For every limit ≥ 1, every returned chunk is a contiguous
substring of the input text, and the lines across all chunks, in order,
form a subsequence of the input's lines (lines may at most be omitted,
never reordered, duplicated, or modified). -/
theorem C10_chunks_contiguous_lines_subsequence (t : List Char) (k : Nat)
    (hk : 1 ≤ k) :
    (∀ c ∈ split_message_by_lines t k, List.IsInfix c t) ∧
      List.Sublist (chunkLines (split_message_by_lines t k)) (splitNL t) :=
  ⟨split_chunks_contiguous t k, (split_lines_sublist t k).1⟩

/-- Witness for C10 at `text = "a\n\nb"`, `limit = 1`. -/
theorem C10_chunks_contiguous_lines_subsequence_witness :
    (∀ c ∈ split_message_by_lines ['a', '\n', '\n', 'b'] 1,
        List.IsInfix c ['a', '\n', '\n', 'b']) ∧
      List.Sublist (chunkLines (split_message_by_lines ['a', '\n', '\n', 'b'] 1))
        (splitNL ['a', '\n', '\n', 'b']) :=
  C10_chunks_contiguous_lines_subsequence ['a', '\n', '\n', 'b'] 1 (by decide)

/-- Witness for C5 at `text = "a\nb"`, `limit = 1`. -/
theorem C5_no_empty_chunks_witness :
    ("a\nb".toList ≠ [] →
        ([] : List Char) ∉ split_message_by_lines "a\nb".toList 1) ∧
      split_message_by_lines ([] : List Char) 1 = [[]] :=
  C5_no_empty_chunks "a\nb".toList 1 (by decide)

end Misaka
